import Mathlib

/-!
Verification development for FocusLog (`focuslog.py`), a desktop-activity
logger: an idle-time sampler feeds an in-memory tick buffer, a recorder
periodically snapshots (timestamp, window title, APM) rows, and an on-demand
query compresses the snapshot history into a rendered timeline with two-stage
title anonymization.

The embedding below models the pure content of the Python source:

* timestamps and durations are integers counting microseconds (Python
  `datetime` has microsecond resolution; subtraction of `datetime`s is exact);
* `bytes`-free text is modelled as `String` / `List Char`; the regular
  expressions used by the source (`\b(kw1|kw2|...)\b` with `re.IGNORECASE`,
  and `\s*-\s*-\s*`) are implemented directly as left-to-right scans with
  the exact matching semantics of `re.sub` on those patterns (ASCII model of
  `\w`, `\s` and of case folding);
* the values of the missing `config.py` (keyword lists, browser lists,
  interval lengths, ...) are parameters of every definition;
* fallible external collaborators (ollama, xdotool, xprintidle, screen-lock
  checks) are `Option`-valued parameters.
-/

/-! ### Character model (ASCII model of Python's `\w`, `\s`, and case folding) -/

/-- Python regex word character `\w` (ASCII fragment): `[A-Za-z0-9_]`. -/
def isWordB (c : Char) : Bool :=
  (decide (48 ≤ c.toNat) && decide (c.toNat ≤ 57)) ||
  (decide (65 ≤ c.toNat) && decide (c.toNat ≤ 90)) ||
  (decide (97 ≤ c.toNat) && decide (c.toNat ≤ 122)) ||
  decide (c.toNat = 95)

/-- Python regex whitespace `\s` (ASCII fragment): space, `\t`, `\n`, `\v`, `\f`, `\r`. -/
def isSpaceB (c : Char) : Bool :=
  decide (c.toNat = 32 ∨ c.toNat = 9 ∨ c.toNat = 10 ∨ c.toNat = 11 ∨ c.toNat = 12 ∨ c.toNat = 13)

/-- ASCII case folding to a numeric code: uppercase letters are mapped to their
lowercase code, models `re.IGNORECASE` comparison. -/
def normChar (c : Char) : Nat :=
  if 65 ≤ c.toNat ∧ c.toNat ≤ 90 then c.toNat + 32 else c.toNat

/-- Case-insensitive character equality. -/
def ciEqChar (a b : Char) : Bool := normChar a == normChar b

/-- Case-insensitive pointwise equality of equal-length character lists. -/
def ciEqL : List Char → List Char → Bool
  | [], [] => true
  | a :: as, b :: bs => ciEqChar a b && ciEqL as bs
  | _, _ => false

/-- `ciStarts k s`: the literal keyword `k` matches (case-insensitively) at the
start of `s`. -/
def ciStarts : List Char → List Char → Bool
  | [], _ => true
  | _ :: _, [] => false
  | a :: as, b :: bs => ciEqChar a b && ciStarts as bs

/-- Wordness of the first character of `s` (`false` at end of string). -/
def headW : List Char → Bool
  | [] => false
  | c :: _ => isWordB c

/-- Wordness of the last character of `span`, defaulting to `p` when `span` is
empty.  Used to evaluate the trailing `\b` of the keyword pattern. -/
def lastWordOf (p : Bool) (span : List Char) : Bool :=
  span.foldl (fun _ c => isWordB c) p

/-- One alternation branch of the pattern `\b(k1|k2|...)\b` tried at the
current position: `p` is the wordness of the character before the position
(`false` at the start of the string).  `\b` matches where exactly one side is
a word character. -/
def tryKw (p : Bool) (k s : List Char) : Bool :=
  ((p != headW s) && ciStarts k s) &&
    (lastWordOf p (s.take k.length) != headW (s.drop k.length))

/-- Attempt of the whole pattern `\b(k1|k2|...)\b` at the current position:
the alternation tries the keywords in their configured order and the first
branch that matches (with both boundaries) wins; the result is the length of
the matched span. -/
def findMatch (kws : List (List Char)) (p : Bool) (s : List Char) : Option Nat :=
  (kws.find? (fun k => tryKw p k s)).map List.length

/-- The single left-to-right pass of `FORBIDDEN_PATTERN.sub("", title)`:
at each position, if the pattern matches a non-empty span the span is dropped
and scanning resumes after it; otherwise (no match, or an empty match, which
substitutes the empty replacement and moves on) the character is copied.
`fuel` is a structural-termination device; it is always called with
`fuel ≥ s.length`, which the scan never exhausts. -/
def scanAux (kws : List (List Char)) : Nat → Bool → List Char → List Char
  | 0, _, s => s
  | _ + 1, _, [] => []
  | fuel + 1, p, c :: rest =>
    match findMatch kws p (c :: rest) with
    | some (n + 1) => scanAux kws fuel (lastWordOf p ((c :: rest).take (n + 1))) (rest.drop n)
    | _ => c :: scanAux kws fuel (isWordB c) rest

/-- `FORBIDDEN_PATTERN.sub("", s)` (line 187 of the source). -/
def forbiddenSub (kws : List (List Char)) (s : List Char) : List Char :=
  scanAux kws s.length false s

/-- `re.search`-style test: does `\b(k1|k2|...)\b` match anywhere in the
string?  (The position after the last character can only host an empty match,
so for non-empty keywords it is irrelevant and not scanned.) -/
def hasMatchScan (kws : List (List Char)) : Bool → List Char → Bool
  | _, [] => false
  | p, c :: rest => (findMatch kws p (c :: rest)).isSome || hasMatchScan kws (isWordB c) rest

/-- Removal of trailing characters satisfying `p` (the right half of Python's
`str.strip`). -/
def dropTrailing (p : Char → Bool) : List Char → List Char
  | [] => []
  | c :: r =>
    match dropTrailing p r with
    | [] => if p c then [] else [c]
    | out => c :: out

/-- Python `str.strip(chars)`: drop leading and trailing characters of the set. -/
def stripBoth (p : Char → Bool) (s : List Char) : List Char :=
  dropTrailing p (s.dropWhile p)

/-- Python `str.strip()` (whitespace, ASCII model). -/
def pyStrip (s : List Char) : List Char := stripBoth isSpaceB s

/-- Python `str.strip(' -')`. -/
def stripSpaceDash (s : List Char) : List Char :=
  stripBoth (fun c => c == ' ' || c == '-') s

/-- Greedy match of `\s*-\s*-\s*` at the current position.  The greedy `\s*`
pieces never need backtracking because a whitespace character is never `'-'`.
On success returns the matched span and the remaining input. -/
def matchDashSplit (s : List Char) : Option (List Char × List Char) :=
  match s.dropWhile isSpaceB with
  | '-' :: r2 =>
    match r2.dropWhile isSpaceB with
    | '-' :: r4 =>
      some (s.takeWhile isSpaceB ++ '-' :: (r2.takeWhile isSpaceB ++ '-' :: r4.takeWhile isSpaceB),
        r4.dropWhile isSpaceB)
    | _ => none
  | _ => none

/-- The single left-to-right pass of `re.sub(r'\s*-\s*-\s*', ' - ', s)`
(line 188 of the source); every matched span is replaced by `" - "`.
`fuel` is a structural-termination device, always called with
`fuel ≥ s.length`. -/
def collapseAux : Nat → List Char → List Char
  | 0, s => s
  | _ + 1, [] => []
  | fuel + 1, c :: r =>
    match matchDashSplit (c :: r) with
    | some (_, rest) => ' ' :: '-' :: ' ' :: collapseAux fuel rest
    | none => c :: collapseAux fuel r

/-- `re.sub(r'\s*-\s*-\s*', ' - ', s)`. -/
def collapseDashes (s : List Char) : List Char := collapseAux s.length s

/-- Stage-1 anonymization pipeline on characters (lines 187–189):
keyword removal, whitespace strip, dash collapse, `strip(' -')`. -/
def preSanitizeChars (kws : List (List Char)) (s : List Char) : List Char :=
  stripSpaceDash (collapseDashes (pyStrip (forbiddenSub kws s)))

/-- `pre_sanitized_title` of `_anonymize_title` (lines 185–189): when no
forbidden keywords are configured `FORBIDDEN_PATTERN` is `None` and the title
is passed through unchanged. -/
def preSanitizedTitle (kws : List String) (title : String) : String :=
  if kws.isEmpty then title
  else String.mk (preSanitizeChars (kws.map String.data) title.data)

/-- `_anonymize_title` (lines 179–208).  `ollamaRun` models the external
`ollama run` call on the prompt built from the stage-1 result; it returns
`none` on timeout, non-zero exit or any execution error, in which case the
stage-1 result is returned. -/
def anonymizeTitle (kws : List String) (ollamaRun : String → Option String)
    (title : String) : String :=
  match ollamaRun (preSanitizedTitle kws title) with
  | none => preSanitizedTitle kws title
  | some r => r

/-- Does the whole-word, case-insensitive keyword pattern match anywhere in
the string? -/
def hasForbiddenWordMatch (kws : List String) (s : String) : Bool :=
  hasMatchScan (kws.map String.data) false s.data

/-! ### Title sanitizer (`_sanitize_window_title`) -/

/-- `needle` occurs at the start of `hay` (exact match). -/
def startsWithB : List Char → List Char → Bool
  | [], _ => true
  | _ :: _, [] => false
  | a :: as, b :: bs => a == b && startsWithB as bs

/-- Python `needle in hay` substring test. -/
def isInfixB (needle : List Char) : List Char → Bool
  | [] => needle.isEmpty
  | c :: rest => startsWithB needle (c :: rest) || isInfixB needle rest

/-- Python `s.endswith(suffix)`. -/
def endsWithB (s suffix : List Char) : Bool :=
  startsWithB suffix.reverse s.reverse

/-- Python slice `s[i:]` for a possibly negative `i`. -/
def pySliceFrom (i : Int) (s : List Char) : List Char :=
  if i < 0 then s.drop (((s.length : Int) + i).toNat) else s.drop i.toNat

/-- The length fallback of `_sanitize_window_title` (lines 175–177):
`"..." + title[-(MAX_TITLE_LENGTH - 3):]` when the title is too long. -/
def lengthTrim (maxLen : Nat) (title : String) : String :=
  if maxLen < title.length then
    String.mk ('.' :: '.' :: '.' :: pySliceFrom (-((maxLen : Int) - 3)) title.data)
  else title

/-- `_sanitize_window_title` (lines 167–177).  `browsers` is
`config.KNOWN_BROWSERS` in its configured order, `rules` is
`config.TITLE_CLEANUP_RULES` in dict insertion order.  `if browser_name:`
is a Python truthiness test: it fails both when no configured browser is a
suffix of the title (`next` returned `None`) and when the first suffix found
is the empty string, so both cases fall through to the length branch. -/
def sanitizeWindowTitle (browsers : List String) (rules : List (String × String))
    (maxLen : Nat) (title : String) : String :=
  match browsers.find? (fun b => endsWithB title.data b.data) with
  | some browser =>
    if browser = "" then lengthTrim maxLen title
    else
      match rules.find? (fun kv => isInfixB kv.1.data title.data) with
      | some kv => kv.2 ++ " - " ++ browser
      | none => lengthTrim maxLen title
  | none => lengthTrim maxLen title

/-! ### Ledger, sampler, recorder -/

/-- The eviction loop of `log_activity_periodically` (lines 328–329):
`while activity_ticks and activity_ticks[0] < one_minute_ago:
activity_ticks.popleft()`.  `cutoff` is `now - APM_WINDOW` (microseconds). -/
def evictOld (cutoff : Int) : List Int → List Int
  | [] => []
  | t :: ts => if t < cutoff then evictOld cutoff ts else t :: ts

/-- One poll cycle of `_apm_counter_thread` (lines 306–312): read the idle
time, skip the cycle if the read failed, otherwise append a tick exactly when
the idle time did not grow by a full poll interval, and update
`last_idle_time`.  Returns the new `last_idle_time` and the new tick buffer. -/
def samplerCycle (pollMs lastIdle : Int) (idleRead : Option Int) (now : Int)
    (ticks : List Int) : Int × List Int :=
  match idleRead with
  | none => (lastIdle, ticks)
  | some cur => (cur, if cur < lastIdle + pollMs then ticks ++ [now] else ticks)

/-- One cycle of `log_activity_periodically` (lines 317–343), up to the
database write: decides the row `(timestamp, title, apm)` to insert and the
new state of the tick buffer.  `w` is `APM_WINDOW_SECONDS` in microseconds,
`titleRead` models `_get_active_window_title()` (`none` on failure; an empty
string is falsy in Python, so `or "Desktop"` replaces it as well). -/
def recorderCycle (w : Int) (browsers : List String) (rules : List (String × String))
    (maxLen : Nat) (locked : Bool) (titleRead : Option String) (ticks : List Int)
    (now : Int) : (Int × String × Nat) × List Int :=
  if locked then ((now, "USER_AFK_LOCKED", 0), ticks)
  else
    let ticks2 := evictOld (now - w) ticks
    let raw := match titleRead with
      | some t => if t = "" then "Desktop" else t
      | none => "Desktop"
    ((now, sanitizeWindowTitle browsers rules maxLen raw, ticks2.length), ticks2)

/-! ### Timeline compressor (`get_activity_log`) -/

/-- One row returned by the snapshot query, already parsed: timestamp in
microseconds, title, and the `apm` column (`none` models SQL `NULL`). -/
structure SnapshotRow where
  timestamp : Int
  title : String
  apm : Option Nat
  deriving DecidableEq, Repr

/-- The needle of the AFK checks in `get_activity_log`. -/
def afkNeedle : String := "USER_AFK"

/-- The AFK sentinel title written by the recorder. -/
def afkSentinel : String := "USER_AFK_LOCKED"

/-- The condition of line 235: a title enters `unique_titles` iff it is
non-empty and does not contain the substring `"USER_AFK"`. -/
def includeTitle (t : String) : Bool :=
  !(t == "") && !(isInfixB afkNeedle.data t.data)

/-- `unique_titles` (line 235) as a duplicate-free list. -/
def uniqueTitles (rows : List SnapshotRow) : List String :=
  ((rows.map (fun r => r.title)).filter includeTitle).dedup

/-- `titles_to_anonymize` (line 238): the unique titles with no cache entry.
The anonymization cache is modelled as an association list observed only
through `List.lookup`. -/
def titlesToAnonymize (cache : List (String × String)) (rows : List SnapshotRow) :
    List String :=
  (uniqueTitles rows).filter (fun t => (cache.lookup t).isNone)

/-- The cache after the fan-out of lines 240–254: every dispatched title gets
an entry (`redact` is the per-title result, i.e. `_anonymize_title`, or the
original title when that raised).  Entry insertion is modelled by consing,
which has the same `lookup` semantics as a `dict` assignment of a fresh key. -/
def cacheAfter (cache : List (String × String)) (redact : String → String)
    (rows : List SnapshotRow) : List (String × String) :=
  (titlesToAnonymize cache rows).foldl (fun c t => (t, redact t) :: c) cache

/-- `anonymization_map.get(title, title)` (lines 256 and 263): titles in
`unique_titles` resolve through the filled cache, all others map to
themselves. -/
def labelOf (cache2 : List (String × String)) (rows : List SnapshotRow)
    (t : String) : String :=
  if (uniqueTitles rows).contains t then ((cache2.lookup t).getD t) else t

/-- A closed timeline entry as appended on lines 269 and 280:
`(start, duration, label, avg_apm)`. -/
structure TBlock where
  start : Int
  dur : Int
  label : String
  avg : Nat
  deriving DecidableEq, Repr

/-- A timeline entry instrumented with the accumulated
`current_block_apm_values` list instead of its closing average. -/
structure VBlock where
  start : Int
  dur : Int
  label : String
  values : List Nat
  deriving DecidableEq, Repr

/-- `[apm] if apm is not None else []` (line 273) and the guard of line 274. -/
def optVals : Option Nat → List Nat
  | none => []
  | some a => [a]

/-- `int(statistics.mean(vals)) if vals else 0` (lines 268 and 279): the
integer (truncated = floored, the values being naturals) mean, or 0. -/
def avgOf (vals : List Nat) : Nat :=
  if vals.isEmpty then 0 else vals.sum / vals.length

/-- The run-length compression loop of lines 261–280, after the first row has
opened a block: `s`, `l`, `v` are `current_block_start_time`,
`current_block_title`, `current_block_apm_values`; the end of input closes the
open block with duration `now - s` (line 278 reads `datetime.now()`). -/
def buildGo (f : String → String) (now : Int) :
    Int → String → List Nat → List SnapshotRow → List TBlock
  | s, l, v, [] => [⟨s, now - s, l, avgOf v⟩]
  | s, l, v, r :: rs =>
    if f r.title = l then buildGo f now s l (v ++ optVals r.apm) rs
    else ⟨s, r.timestamp - s, l, avgOf v⟩ :: buildGo f now r.timestamp (f r.title) (optVals r.apm) rs

/-- The `timeline` list built by `get_activity_log` before rendering
(lines 258–280); `f` is the title-to-redacted-label map. -/
def buildTimeline (f : String → String) (now : Int) : List SnapshotRow → List TBlock
  | [] => []
  | r :: rs => buildGo f now r.timestamp (f r.title) (optVals r.apm) rs

/-- As `buildGo`, but keeping each block's accumulated APM-value list. -/
def buildGoV (f : String → String) (now : Int) :
    Int → String → List Nat → List SnapshotRow → List VBlock
  | s, l, v, [] => [⟨s, now - s, l, v⟩]
  | s, l, v, r :: rs =>
    if f r.title = l then buildGoV f now s l (v ++ optVals r.apm) rs
    else ⟨s, r.timestamp - s, l, v⟩ :: buildGoV f now r.timestamp (f r.title) (optVals r.apm) rs

/-- As `buildTimeline`, but keeping each block's accumulated APM-value list. -/
def buildBlocksV (f : String → String) (now : Int) : List SnapshotRow → List VBlock
  | [] => []
  | r :: rs => buildGoV f now r.timestamp (f r.title) (optVals r.apm) rs

/-- Closing a value-instrumented block the way lines 268–269 and 279–280 do. -/
def closeV (b : VBlock) : TBlock := ⟨b.start, b.dur, b.label, avgOf b.values⟩

/-- The number of adjacent row pairs whose redacted labels differ. -/
def adjLabelChanges (f : String → String) (rows : List SnapshotRow) : Nat :=
  (rows.zip rows.tail).countP (fun p => decide (f p.1.title ≠ f p.2.title))

/-- The chaining shape of a timeline: every non-final block's duration is the
following block's start minus its own start, and the final (open) block's
duration is `now` minus its start. -/
def chainedT (now : Int) : List TBlock → Prop
  | [] => True
  | [b] => b.dur = now - b.start
  | b :: b2 :: rest => b.dur = b2.start - b.start ∧ chainedT now (b2 :: rest)

/-! ### Rendering -/

/-- Two-digit zero padding. -/
def pad2 (n : Nat) : String := if n < 10 then "0" ++ toString n else toString n

/-- `start.strftime('%H:%M')` for a timestamp in microseconds measured from a
midnight epoch. -/
def hhmmOf (us : Int) : String :=
  let m := (((us / 1000000) / 60) % 1440).toNat
  pad2 (m / 60) ++ ":" ++ pad2 (m % 60)

/-- `_format_duration_compact` (lines 152–160) on a duration in microseconds:
`seconds = int(duration.total_seconds())` truncates toward zero, then the
compact rendering; `divmod` on the (now non-negative) quantities is Euclidean
division. -/
def formatDurationCompact (us : Int) : String :=
  let seconds := us.tdiv 1000000
  if seconds < 60 then toString seconds ++ "s"
  else
    let minutes := seconds / 60
    if minutes < 60 then toString minutes ++ "m"
    else
      let hours := minutes / 60
      let remMinutes := minutes % 60
      if remMinutes = 0 then toString hours ++ "h"
      else toString hours ++ "h" ++ toString remMinutes ++ "m"

/-- One rendered timeline line (lines 285–291): AFK-labelled blocks carry no
`(Avg APM: n)` segment. -/
def renderLine (b : TBlock) : String :=
  if isInfixB afkNeedle.data b.label.data then
    hhmmOf b.start ++ " (" ++ formatDurationCompact b.dur ++ "): " ++ b.label
  else
    hhmmOf b.start ++ " (" ++ formatDurationCompact b.dur ++ "): (Avg APM: " ++
      toString b.avg ++ ") " ++ b.label

/-- The rendered body lines of `get_activity_log` (lines 283–291): blocks with
`duration.total_seconds() < LOG_INTERVAL_SECONDS / 2` are skipped (the exact
comparison `dur / 10^6 < L / 2` is `2 * dur < L * 10^6`), the others each
produce one line. -/
def renderLines (logInterval : Nat) (blocks : List TBlock) : List String :=
  blocks.filterMap (fun b =>
    if 2 * b.dur < (logInterval : Int) * 1000000 then none else some (renderLine b))

/-! ### Auxiliary definitions used by the proofs -/

/-- Does the run equal (case-insensitively) one of the keywords? -/
def matchesKwB (kws : List (List Char)) (run : List Char) : Bool :=
  kws.any (fun k => ciEqL run k)

/-- Prepend a word character to a run decomposition: when the next character
is also a word character the new character joins the first run, otherwise it
opens a run of its own. -/
def consRun (c : Char) (headWord : Bool) (tl : List (List Char)) : List (List Char) :=
  if headWord then
    match tl with
    | run :: rs => (c :: run) :: rs
    | [] => [[c]]
  else [c] :: tl

/-- The maximal runs of word characters of a string, in order. -/
def wordRuns : List Char → List (List Char)
  | [] => []
  | c :: rest =>
    if isWordB c then consRun c (headW rest) (wordRuns rest) else wordRuns rest

/-- The keyword-removal scan at an arbitrary preceding-wordness state, with
the fuel pre-filled; `forbiddenSub kws s = scanF kws false s`. -/
def scanF (kws : List (List Char)) (p : Bool) (s : List Char) : List Char :=
  scanAux kws s.length p s

/-- The word runs visible to a scan in state `p`: when the previous character
was a word character the current run was already entered, so matches can only
start after it ends. -/
def wordRunsFrom (p : Bool) (s : List Char) : List (List Char) :=
  if p then wordRuns (s.dropWhile isWordB) else wordRuns s

/-- Number of label changes of a row list relative to a preceding label `l`. -/
def labelChangesFrom (f : String → String) : String → List SnapshotRow → Nat
  | _, [] => 0
  | l, r :: rs => (if f r.title = l then 0 else 1) + labelChangesFrom f (f r.title) rs

/-- A one-row history holding only an AFK-sentinel snapshot (as the recorder
writes it: apm column = 0). -/
def afkOnlyRows : List SnapshotRow := [⟨0, afkSentinel, some 0⟩]

/-! ## Theorems -/

/-! ### Ledger eviction (C2) -/

theorem evictOld_eq_filter (cutoff : Int) :
    ∀ ticks : List Int, ticks.Pairwise (· ≤ ·) →
      evictOld cutoff ticks = ticks.filter (fun t => decide (cutoff ≤ t))
  | [], _ => rfl
  | t :: ts, h => by
    rcases List.pairwise_cons.mp h with ⟨hts, htail⟩
    by_cases hlt : t < cutoff
    · have : decide (cutoff ≤ t) = false := by simp; omega
      simp only [evictOld, if_pos hlt, List.filter_cons, this]
      exact evictOld_eq_filter cutoff ts htail
    · have hct : cutoff ≤ t := by omega
      have : List.filter (fun t => decide (cutoff ≤ t)) ts = ts :=
        List.filter_eq_self.mpr (fun u hu => by simpa using le_trans hct (hts u hu))
      simp [evictOld, if_neg hlt, List.filter_cons, hct, this]

/-- Claim C2: for a tick buffer sorted in ascending timestamp order, the
evict-then-count step of the recorder (`while ticks[0] < now - W: popleft`,
then `len`) removes exactly the ticks with timestamp `< now - W` and returns
as APM exactly the count of ticks with timestamp `≥ now - W`; the boundary
tick at exactly `now - W` is counted, not evicted. -/
theorem evict_then_count_spec (now w : Int) (ticks : List Int)
    (hs : ticks.Pairwise (· ≤ ·)) :
    evictOld (now - w) ticks = ticks.filter (fun t => decide (now - w ≤ t)) ∧
    (evictOld (now - w) ticks).length = ticks.countP (fun t => decide (now - w ≤ t)) ∧
    ∀ t ∈ ticks, (t ∈ evictOld (now - w) ticks ↔ now - w ≤ t) := by
  have h := evictOld_eq_filter (now - w) ticks hs
  refine ⟨h, ?_, ?_⟩
  · rw [h, List.countP_eq_length_filter]
  · intro t ht
    rw [h, List.mem_filter]
    simp [ht]

theorem evict_then_count_spec_witness :
    evictOld (10 - 4) [3, 6, 9] = List.filter (fun t => decide ((10 : Int) - 4 ≤ t)) [3, 6, 9] :=
  (evict_then_count_spec 10 4 [3, 6, 9] (by decide)).1

/-! ### Sampler cycle (C9) -/

/-- Claim C9: in a sampler poll cycle with a successful idle-time read `cur`,
exactly one tick timestamped `now` is appended when `cur < lastIdle + pollMs`
and none otherwise, and `last_idle_time` becomes `cur` in both cases; when the
read fails the cycle appends nothing and leaves `last_idle_time` unchanged. -/
theorem sampler_cycle_spec (pollMs lastIdle now : Int) (ticks : List Int) :
    (∀ cur : Int, cur < lastIdle + pollMs →
      samplerCycle pollMs lastIdle (some cur) now ticks = (cur, ticks ++ [now])) ∧
    (∀ cur : Int, ¬ cur < lastIdle + pollMs →
      samplerCycle pollMs lastIdle (some cur) now ticks = (cur, ticks)) ∧
    samplerCycle pollMs lastIdle none now ticks = (lastIdle, ticks) := by
  refine ⟨fun cur h => ?_, fun cur h => ?_, rfl⟩ <;> simp [samplerCycle, h]

theorem sampler_cycle_spec_witness :
    samplerCycle 1000 0 (some 500) 7 [] = (500, [7]) :=
  (sampler_cycle_spec 1000 0 7 []).1 500 (by decide)

/-! ### Recorder locked cycle (C8) -/

/-- Claim C8: when the lock-state check returns true, the recorder cycle
produces the row `(now, "USER_AFK_LOCKED", 0)` and leaves the tick buffer
entirely unchanged; the result does not depend on the window-title collaborator
(`titleRead` is arbitrary on the left and absent on the right) and performs no
eviction or count on the ticks. -/
theorem recorder_locked_spec (w : Int) (browsers : List String)
    (rules : List (String × String)) (maxLen : Nat) (titleRead : Option String)
    (ticks : List Int) (now : Int) :
    recorderCycle w browsers rules maxLen true titleRead ticks now
      = ((now, afkSentinel, 0), ticks) := rfl

/-! ### Title sanitizer (C6) -/

theorem lengthTrim_of_long (maxLen : Nat) (title : String) (h4 : 4 ≤ maxLen)
    (hlong : maxLen < title.length) :
    lengthTrim maxLen title
      = String.mk ('.' :: '.' :: '.' :: title.data.drop (title.length - (maxLen - 3))) := by
  have hlen : title.length = title.data.length := rfl
  have hneg : -((maxLen : Int) - 3) < 0 := by omega
  have hcount : (((title.data.length : Int)) + -((maxLen : Int) - 3)).toNat
      = title.length - (maxLen - 3) := by omega
  simp only [lengthTrim, pySliceFrom, if_pos hlong, if_pos hneg, hcount]

/-- Claim C6: `_sanitize_window_title` returns `"<cleanName> - <browserSuffix>"`
for the first configured cleanup keyword (in configured iteration order) that
is a substring of the title whenever the title ends with a recognized browser
suffix and such a keyword exists; otherwise, when the title exceeds
`MAX_TITLE_LENGTH` it returns `"..."` followed by the last
`MAX_TITLE_LENGTH - 3` characters, and otherwise the title unchanged.
(Hypotheses on the configuration, whose `config.py` is not part of the
sources: `MAX_TITLE_LENGTH ≥ 4`, so that the negative slice of the source is
the "last `MAX - 3` characters", and no configured browser suffix is the
empty string — an empty `browser_name` is falsy in Python and would fall
through to the length branch.) -/
theorem sanitize_window_title_spec (browsers : List String)
    (rules : List (String × String)) (maxLen : Nat) (title : String)
    (h4 : 4 ≤ maxLen) (hbr : ∀ b ∈ browsers, b ≠ "") :
    (∀ b kv, browsers.find? (fun x => endsWithB title.data x.data) = some b →
      rules.find? (fun x => isInfixB x.1.data title.data) = some kv →
      sanitizeWindowTitle browsers rules maxLen title = kv.2 ++ " - " ++ b) ∧
    ((browsers.find? (fun x => endsWithB title.data x.data) = none ∨
      rules.find? (fun x => isInfixB x.1.data title.data) = none) →
      maxLen < title.length →
      sanitizeWindowTitle browsers rules maxLen title
        = String.mk ('.' :: '.' :: '.' :: title.data.drop (title.length - (maxLen - 3)))) ∧
    ((browsers.find? (fun x => endsWithB title.data x.data) = none ∨
      rules.find? (fun x => isInfixB x.1.data title.data) = none) →
      title.length ≤ maxLen →
      sanitizeWindowTitle browsers rules maxLen title = title) := by
  refine ⟨?_, ?_, ?_⟩
  · intro b kv hb hkv
    simp only [sanitizeWindowTitle, hb, hkv,
      if_neg (hbr b (List.mem_of_find?_eq_some hb))]
  · intro hnone hlong
    rcases hnone with hb | hkv
    · simp only [sanitizeWindowTitle, hb, lengthTrim_of_long maxLen title h4 hlong]
    · rcases hb : browsers.find? (fun x => endsWithB title.data x.data) with _ | b
      · simp only [sanitizeWindowTitle, hb, lengthTrim_of_long maxLen title h4 hlong]
      · simp only [sanitizeWindowTitle, hb, hkv,
          if_neg (hbr b (List.mem_of_find?_eq_some hb)),
          lengthTrim_of_long maxLen title h4 hlong]
  · intro hnone hshort
    have htrim : lengthTrim maxLen title = title := by
      simp only [lengthTrim, if_neg (by omega : ¬ maxLen < title.length)]
    rcases hnone with hb | hkv
    · simp only [sanitizeWindowTitle, hb, htrim]
    · rcases hb : browsers.find? (fun x => endsWithB title.data x.data) with _ | b
      · simp only [sanitizeWindowTitle, hb, htrim]
      · simp only [sanitizeWindowTitle, hb, hkv,
          if_neg (hbr b (List.mem_of_find?_eq_some hb)), htrim]

theorem sanitize_window_title_spec_witness :
    sanitizeWindowTitle [] [] 10 "0123456789012"
      = String.mk ('.' :: '.' :: '.' :: (("0123456789012" : String)).data.drop 6) :=
  (sanitize_window_title_spec [] [] 10 "0123456789012" (by decide) (by decide)).2.1
    (Or.inl rfl) (by decide)

/-! ### Timeline compression (C1) -/

theorem buildGo_eq_mapV (f : String → String) (now : Int) :
    ∀ (rows : List SnapshotRow) (s : Int) (l : String) (v : List Nat),
      buildGo f now s l v rows = (buildGoV f now s l v rows).map closeV
  | [], s, l, v => rfl
  | r :: rs, s, l, v => by
    by_cases h : f r.title = l <;>
      simp [buildGo, buildGoV, closeV, h, buildGo_eq_mapV f now rs]

theorem buildTimeline_eq_mapV (f : String → String) (now : Int)
    (rows : List SnapshotRow) :
    buildTimeline f now rows = (buildBlocksV f now rows).map closeV := by
  cases rows with
  | nil => rfl
  | cons r rs => exact buildGo_eq_mapV f now rs r.timestamp (f r.title) (optVals r.apm)

theorem buildGo_length (f : String → String) (now : Int) :
    ∀ (rows : List SnapshotRow) (s : Int) (l : String) (v : List Nat),
      (buildGo f now s l v rows).length = labelChangesFrom f l rows + 1
  | [], _, _, _ => rfl
  | r :: rs, s, l, v => by
    by_cases h : f r.title = l
    · simp [buildGo, labelChangesFrom, h, buildGo_length f now rs]
    · simp [buildGo, labelChangesFrom, h, buildGo_length f now rs]
      omega

theorem adjLabelChanges_cons (f : String → String) :
    ∀ (rs : List SnapshotRow) (r : SnapshotRow),
      adjLabelChanges f (r :: rs) = labelChangesFrom f (f r.title) rs
  | [], _ => rfl
  | r2 :: rs2, r => by
    have ih := adjLabelChanges_cons f rs2 r2
    have hstep : adjLabelChanges f (r :: r2 :: rs2)
        = (if f r2.title = f r.title then 0 else 1) + adjLabelChanges f (r2 :: rs2) := by
      simp only [adjLabelChanges, List.tail_cons, List.zip_cons_cons, List.countP_cons, ne_eq]
      by_cases h : f r2.title = f r.title
      · have h2 : f r.title = f r2.title := h.symm
        simp [h2]
      · have h2 : ¬ f r.title = f r2.title := fun e => h e.symm
        simp [h, h2]
        omega
    rw [hstep, ih]
    simp [labelChangesFrom]

theorem buildGo_head_start (f : String → String) (now : Int) :
    ∀ (rows : List SnapshotRow) (s : Int) (l : String) (v : List Nat),
      ∃ d a tl, buildGo f now s l v rows = TBlock.mk s d l a :: tl
  | [], s, l, v => ⟨now - s, avgOf v, [], rfl⟩
  | r :: rs, s, l, v => by
    by_cases h : f r.title = l
    · simpa [buildGo, h] using buildGo_head_start f now rs s l (v ++ optVals r.apm)
    · exact ⟨r.timestamp - s, avgOf v,
        buildGo f now r.timestamp (f r.title) (optVals r.apm) rs, by simp [buildGo, h]⟩

theorem buildGo_chained (f : String → String) (now : Int) :
    ∀ (rows : List SnapshotRow) (s : Int) (l : String) (v : List Nat),
      chainedT now (buildGo f now s l v rows)
  | [], s, l, v => by simp [buildGo, chainedT]
  | r :: rs, s, l, v => by
    by_cases h : f r.title = l
    · simpa [buildGo, h] using buildGo_chained f now rs s l (v ++ optVals r.apm)
    · have ih := buildGo_chained f now rs r.timestamp (f r.title) (optVals r.apm)
      obtain ⟨d, a, tl, heq⟩ :=
        buildGo_head_start f now rs r.timestamp (f r.title) (optVals r.apm)
      rw [heq] at ih
      simp only [buildGo, h, if_neg h, heq]
      exact ⟨rfl, ih⟩

theorem buildGo_dur_sum (f : String → String) (now : Int) :
    ∀ (rows : List SnapshotRow) (s : Int) (l : String) (v : List Nat),
      ((buildGo f now s l v rows).map TBlock.dur).sum = now - s
  | [], s, l, v => by simp [buildGo]
  | r :: rs, s, l, v => by
    by_cases h : f r.title = l
    · simpa [buildGo, h] using buildGo_dur_sum f now rs s l (v ++ optVals r.apm)
    · have ih := buildGo_dur_sum f now rs r.timestamp (f r.title) (optVals r.apm)
      simp [buildGo, h, ih]

/-- Claim C1: for a non-empty, timestamp-ordered snapshot sequence, the
timeline built by `get_activity_log` before short-block filtering has exactly
(number of adjacent row pairs with differing redacted labels) + 1 blocks; each
non-final block's duration equals the following block's start minus its own
start and the trailing open block's duration equals `now` minus its start
(`chainedT`); each block's average APM is the integer mean of its accumulated
APM values, or 0 if none were accumulated (the timeline is the value-level
timeline closed by `avgOf`); and the pre-filter block durations sum to the
time span covered by the query result, `now` minus the first row's
timestamp. -/
theorem timeline_runlength_spec (f : String → String) (now : Int)
    (r : SnapshotRow) (rs : List SnapshotRow)
    (_hsorted : (r :: rs).Pairwise (fun a b => a.timestamp ≤ b.timestamp)) :
    (buildTimeline f now (r :: rs)).length = adjLabelChanges f (r :: rs) + 1 ∧
    chainedT now (buildTimeline f now (r :: rs)) ∧
    buildTimeline f now (r :: rs) = (buildBlocksV f now (r :: rs)).map closeV ∧
    ((buildTimeline f now (r :: rs)).map TBlock.dur).sum = now - r.timestamp := by
  refine ⟨?_, ?_, buildTimeline_eq_mapV f now (r :: rs), ?_⟩
  · rw [adjLabelChanges_cons f rs r]
    exact buildGo_length f now rs r.timestamp (f r.title) (optVals r.apm)
  · exact buildGo_chained f now rs r.timestamp (f r.title) (optVals r.apm)
  · exact buildGo_dur_sum f now rs r.timestamp (f r.title) (optVals r.apm)

theorem timeline_runlength_spec_witness :
    (buildTimeline (fun t => t) 300000000
        [⟨0, "A", some 5⟩, ⟨60000000, "A", some 7⟩, ⟨120000000, "B", some 0⟩]).length
      = adjLabelChanges (fun t => t)
          [⟨0, "A", some 5⟩, ⟨60000000, "A", some 7⟩, ⟨120000000, "B", some 0⟩] + 1 :=
  (timeline_runlength_spec (fun t => t) 300000000 ⟨0, "A", some 5⟩
    [⟨60000000, "A", some 7⟩, ⟨120000000, "B", some 0⟩] (by decide)).1

/-! ### Redaction cache (C5) -/

theorem lookup_after_fill (redact : String → String) :
    ∀ (l : List String) (c : List (String × String)) (t : String),
      (∀ u ∈ l, u ≠ t) →
      (l.foldl (fun c u => (u, redact u) :: c) c).lookup t = c.lookup t
  | [], _, _, _ => rfl
  | u :: l2, c, t, h => by
    have hne : (t == u) = false := by
      simp only [beq_eq_false_iff_ne, ne_eq]
      exact fun e => h u (by simp) e.symm
    have ih := lookup_after_fill redact l2 ((u, redact u) :: c) t
      (fun x hx => h x (by simp [hx]))
    simp only [List.foldl_cons] at ih ⊢
    rw [ih, List.lookup_cons, hne]

/-- Claim C5: a title with a cache entry at the start of a `get_activity_log`
invocation is never placed in `titles_to_anonymize` (so no redaction call is
dispatched for it), the fill phase leaves its entry untouched, and the
title-to-label map resolves it to the cached value. -/
theorem cached_title_not_redispatched (rows : List SnapshotRow)
    (cache : List (String × String)) (redact : String → String) (t v : String)
    (hc : cache.lookup t = some v) :
    t ∉ titlesToAnonymize cache rows ∧
    (cacheAfter cache redact rows).lookup t = some v ∧
    (t ∈ uniqueTitles rows → labelOf (cacheAfter cache redact rows) rows t = v) := by
  have hdisp : ∀ u ∈ titlesToAnonymize cache rows, u ≠ t := by
    intro u hu he
    have := (List.mem_filter.mp hu).2
    rw [he, hc] at this
    simp at this
  have hlook : (cacheAfter cache redact rows).lookup t = some v := by
    rw [cacheAfter, lookup_after_fill redact _ cache t hdisp, hc]
  refine ⟨fun ht => hdisp t ht rfl, hlook, fun hmem => ?_⟩
  have hcont : (uniqueTitles rows).contains t = true := by simpa using hmem
  rw [labelOf, if_pos hcont, hlook]
  rfl

theorem cached_title_not_redispatched_witness :
    (cacheAfter [("A", "X")] (fun t => t) [⟨0, "A", some 1⟩]).lookup "A" = some "X" :=
  (cached_title_not_redispatched [⟨0, "A", some 1⟩] [("A", "X")] (fun t => t)
    "A" "X" (by rfl)).2.1

/-! ### AFK-substring exclusion (C10) -/

/-- Claim C10: a snapshot title is excluded from the candidate set sent to the
redactor iff it is empty or contains the substring `"USER_AFK"` anywhere (not
only the exact sentinel); such a title maps to itself in the title-to-label
map, so it appears in the timeline under its original text, and any block
carrying such a label renders without an `(Avg APM: n)` segment. -/
theorem afk_substring_exclusion (rows : List SnapshotRow)
    (cache2 : List (String × String)) (t : String) :
    (t ∈ uniqueTitles rows ↔
      t ∈ rows.map (fun r => r.title) ∧ ¬(t = "" ∨ isInfixB afkNeedle.data t.data = true)) ∧
    (isInfixB afkNeedle.data t.data = true → labelOf cache2 rows t = t) ∧
    (∀ b : TBlock, isInfixB afkNeedle.data b.label.data = true →
      renderLine b = hhmmOf b.start ++ " (" ++ formatDurationCompact b.dur ++ "): " ++ b.label) := by
  have hchar : t ∈ uniqueTitles rows ↔
      t ∈ rows.map (fun r => r.title) ∧ ¬(t = "" ∨ isInfixB afkNeedle.data t.data = true) := by
    rw [uniqueTitles, List.mem_dedup, List.mem_filter]
    simp [includeTitle, not_or]
  refine ⟨hchar, fun hafk => ?_, fun b hafk => ?_⟩
  · have hmem : t ∉ uniqueTitles rows := by
      intro hmem
      exact (hchar.mp hmem).2 (Or.inr hafk)
    have hcont : ¬ ((uniqueTitles rows).contains t = true) := by
      simpa using hmem
    rw [labelOf, if_neg hcont]
  · rw [renderLine, if_pos hafk]

theorem afk_substring_exclusion_witness :
    labelOf [] [⟨0, "xUSER_AFKy", some 2⟩] "xUSER_AFKy" = "xUSER_AFKy" :=
  (afk_substring_exclusion [⟨0, "xUSER_AFKy", some 2⟩] [] "xUSER_AFKy").2.1 (by decide)

/-! ### AFK sentinel and APM accumulation (C4) -/

/-- Claim C4, counterexample: the claim states that AFK-sentinel rows never
contribute an APM value to any block's accumulated APM values.  On the
one-row history `afkOnlyRows = [(0, "USER_AFK_LOCKED", 0)]` (the recorder
stores apm = 0, not NULL, for locked cycles) the block-building loop of
`get_activity_log` produces a sentinel block whose accumulated value list is
`[0]` — the value contributed by the sentinel row itself (lines 273 and 275
append `apm` whenever it is not `None`, regardless of the title). -/
theorem afk_sentinel_contributes_counterexample :
    buildBlocksV (labelOf (cacheAfter [] (fun t => t) afkOnlyRows) afkOnlyRows)
        60000000 afkOnlyRows
      = [⟨0, 60000000, afkSentinel, [0]⟩] := by decide

theorem buildGoV_values_source (f : String → String) (now : Int) :
    ∀ (rows : List SnapshotRow) (s : Int) (l : String) (v : List Nat),
      ∀ b ∈ buildGoV f now s l v rows, ∀ x ∈ b.values,
        (b.label = l ∧ x ∈ v) ∨ ∃ r ∈ rows, f r.title = b.label ∧ r.apm = some x
  | [], s, l, v => by
    intro b hb x hx
    simp only [buildGoV, List.mem_singleton] at hb
    subst hb
    exact Or.inl ⟨rfl, hx⟩
  | r :: rs, s, l, v => by
    intro b hb x hx
    by_cases h : f r.title = l
    · rw [buildGoV, if_pos h] at hb
      rcases buildGoV_values_source f now rs s l (v ++ optVals r.apm) b hb x hx with
        ⟨hl, hv⟩ | ⟨r2, hr2, hlab, hap⟩
      · rcases List.mem_append.mp hv with hv2 | hv2
        · exact Or.inl ⟨hl, hv2⟩
        · refine Or.inr ⟨r, by simp, by rw [h, hl], ?_⟩
          cases hap : r.apm with
          | none => rw [hap] at hv2; simp [optVals] at hv2
          | some a =>
            rw [hap] at hv2
            simp only [optVals, List.mem_singleton] at hv2
            rw [hv2]
      · exact Or.inr ⟨r2, by simp [hr2], hlab, hap⟩
    · rw [buildGoV, if_neg h] at hb
      rcases List.mem_cons.mp hb with hb2 | hb2
      · subst hb2
        exact Or.inl ⟨rfl, hx⟩
      · rcases buildGoV_values_source f now rs r.timestamp (f r.title) (optVals r.apm)
          b hb2 x hx with ⟨hl, hv⟩ | ⟨r2, hr2, hlab, hap⟩
        · refine Or.inr ⟨r, by simp, hl.symm ▸ rfl, ?_⟩
          cases hap : r.apm with
          | none => rw [hap] at hv; simp [optVals] at hv
          | some a =>
            rw [hap] at hv
            simp only [optVals, List.mem_singleton] at hv
            rw [hv]
        · exact Or.inr ⟨r2, by simp [hr2], hlab, hap⟩

theorem labelOf_afkSentinel (cache2 : List (String × String))
    (rows : List SnapshotRow) : labelOf cache2 rows afkSentinel = afkSentinel := by
  have hafk : isInfixB afkNeedle.data afkSentinel.data = true := by decide
  have hmem : afkSentinel ∉ uniqueTitles rows := by
    intro hmem
    have := (List.mem_filter.mp ((List.mem_dedup).mp hmem)).2
    simp [includeTitle, hafk] at this
  have hcont : ¬ ((uniqueTitles rows).contains afkSentinel = true) := by
    simpa using hmem
  rw [labelOf, if_neg hcont]

/-- Claim C4 (amended): rows carrying the AFK sentinel `"USER_AFK_LOCKED"` are
never placed in the candidate set for the redactor nor dispatched; a sentinel
row's stored APM value (0, as the recorder writes it) is accumulated only into
blocks labelled by the sentinel itself — every value accumulated in a block
with a different label comes from a non-sentinel row; and every rendered
sentinel block line carries no `(Avg APM: n)` segment. -/
theorem afk_sentinel_blocks_spec (rows : List SnapshotRow)
    (cache : List (String × String)) (redact : String → String) (now : Int) :
    afkSentinel ∉ uniqueTitles rows ∧
    afkSentinel ∉ titlesToAnonymize cache rows ∧
    (∀ b ∈ buildBlocksV (labelOf (cacheAfter cache redact rows) rows) now rows,
      b.label ≠ afkSentinel → ∀ x ∈ b.values,
        ∃ r ∈ rows, r.apm = some x ∧ r.title ≠ afkSentinel) ∧
    (∀ b : TBlock, b.label = afkSentinel →
      renderLine b = hhmmOf b.start ++ " (" ++ formatDurationCompact b.dur ++ "): " ++ b.label) := by
  have hafk : isInfixB afkNeedle.data afkSentinel.data = true := by decide
  have hmem : afkSentinel ∉ uniqueTitles rows := by
    intro hmem
    have := (List.mem_filter.mp ((List.mem_dedup).mp hmem)).2
    simp [includeTitle, hafk] at this
  refine ⟨hmem, ?_, ?_, ?_⟩
  · intro hmem2
    exact hmem (List.mem_filter.mp hmem2).1
  · intro b hb hlab x hx
    cases rows with
    | nil => simp [buildBlocksV] at hb
    | cons r rs =>
      have hsent : ∀ r2 : SnapshotRow,
          labelOf (cacheAfter cache redact (r :: rs)) (r :: rs) r2.title = b.label →
          r2.title ≠ afkSentinel := by
        intro r2 hr2 he
        rw [he, labelOf_afkSentinel] at hr2
        exact hlab hr2.symm
      simp only [buildBlocksV] at hb
      rcases buildGoV_values_source (labelOf (cacheAfter cache redact (r :: rs)) (r :: rs))
        now rs r.timestamp _ (optVals r.apm) b hb x hx with ⟨hl, hv⟩ | ⟨r2, hr2, hlab2, hap⟩
      · refine ⟨r, by simp, ?_, hsent r hl.symm⟩
        cases hap : r.apm with
        | none => rw [hap] at hv; simp [optVals] at hv
        | some a =>
          rw [hap] at hv
          simp only [optVals, List.mem_singleton] at hv
          rw [hv]
      · exact ⟨r2, by simp [hr2], hap, hsent r2 hlab2⟩
  · intro b hlab
    have : isInfixB afkNeedle.data b.label.data = true := by rw [hlab]; decide
    rw [renderLine, if_pos this]

theorem afk_sentinel_blocks_spec_witness :
    ∃ r ∈ [(⟨0, "A", some 3⟩ : SnapshotRow), ⟨10, afkSentinel, some 0⟩],
      r.apm = some 3 ∧ r.title ≠ afkSentinel :=
  (afk_sentinel_blocks_spec [⟨0, "A", some 3⟩, ⟨10, afkSentinel, some 0⟩] [] (fun t => t)
      50).2.2.1 ⟨0, 10, "A", [3]⟩ (by decide) (by decide) 3 (by decide)

/-! ### Rendering and short-block filtering (C7) -/

theorem renderLines_eq_filter_map (logInterval : Nat) :
    ∀ blocks : List TBlock,
      renderLines logInterval blocks
        = (blocks.filter
            (fun b => decide ((logInterval : Int) * 1000000 ≤ 2 * b.dur))).map renderLine
  | [] => rfl
  | b :: bs => by
    have ih := renderLines_eq_filter_map logInterval bs
    by_cases h : 2 * b.dur < (logInterval : Int) * 1000000
    · have hk : ¬ ((logInterval : Int) * 1000000 ≤ 2 * b.dur) := by omega
      simp only [renderLines, List.filterMap_cons, if_pos h, List.filter_cons] at ih ⊢
      simp [hk, ih]
    · have hk : (logInterval : Int) * 1000000 ≤ 2 * b.dur := by omega
      simp only [renderLines, List.filterMap_cons, if_neg h, List.filter_cons] at ih ⊢
      simp [hk, ih]

/-- Claim C7: the rendered output has one line per block whose duration is at
least `LOG_INTERVAL_SECONDS / 2` (the exact comparison, on microsecond
durations, is `L * 10^6 ≤ 2 * dur`) and omits every shorter block — the
timeline is built first and only filtered at render time, so a dropped block's
snapshots are consumed and never extend a neighbour; AFK blocks render without
and other blocks with the `(Avg APM: n)` segment; and a duration renders as
`"Ns"` under 60 seconds, `"Nm"` under 60 minutes, and `"NhMm"` otherwise,
with a zero-minute remainder rendered as `"Nh"`. -/
theorem render_filter_format_spec (logInterval : Nat) (blocks : List TBlock) :
    renderLines logInterval blocks
      = (blocks.filter
          (fun b => decide ((logInterval : Int) * 1000000 ≤ 2 * b.dur))).map renderLine ∧
    (∀ b : TBlock, isInfixB afkNeedle.data b.label.data = true →
      renderLine b = hhmmOf b.start ++ " (" ++ formatDurationCompact b.dur ++ "): " ++ b.label) ∧
    (∀ b : TBlock, isInfixB afkNeedle.data b.label.data = false →
      renderLine b = hhmmOf b.start ++ " (" ++ formatDurationCompact b.dur ++ "): (Avg APM: " ++
        toString b.avg ++ ") " ++ b.label) ∧
    (∀ us : Int, 0 ≤ us → us < 60000000 →
      formatDurationCompact us = toString (us.tdiv 1000000) ++ "s") ∧
    (∀ us : Int, 60000000 ≤ us → us < 3600000000 →
      formatDurationCompact us = toString (us.tdiv 1000000 / 60) ++ "m") ∧
    (∀ us : Int, 3600000000 ≤ us → us.tdiv 1000000 / 60 % 60 = 0 →
      formatDurationCompact us = toString (us.tdiv 1000000 / 60 / 60) ++ "h") ∧
    (∀ us : Int, 3600000000 ≤ us → us.tdiv 1000000 / 60 % 60 ≠ 0 →
      formatDurationCompact us = toString (us.tdiv 1000000 / 60 / 60) ++ "h" ++
        toString (us.tdiv 1000000 / 60 % 60) ++ "m") := by
  refine ⟨renderLines_eq_filter_map logInterval blocks, fun b h => ?_, fun b h => ?_,
    fun us h0 h1 => ?_, fun us h0 h1 => ?_, fun us h0 h1 => ?_, fun us h0 h1 => ?_⟩
  · rw [renderLine, if_pos h]
  · rw [renderLine, if_neg (by simp [h])]
  · have ht : us.tdiv 1000000 = us / 1000000 := Int.tdiv_eq_ediv h0 (by omega)
    have : us.tdiv 1000000 < 60 := by rw [ht]; omega
    rw [formatDurationCompact, if_pos this]
  · have ht : us.tdiv 1000000 = us / 1000000 := Int.tdiv_eq_ediv (by omega) (by omega)
    have h2 : ¬ us.tdiv 1000000 < 60 := by rw [ht]; omega
    have h3 : us.tdiv 1000000 / 60 < 60 := by rw [ht]; omega
    rw [formatDurationCompact]
    simp only [if_neg h2, if_pos h3]
  · have ht : us.tdiv 1000000 = us / 1000000 := Int.tdiv_eq_ediv (by omega) (by omega)
    have h2 : ¬ us.tdiv 1000000 < 60 := by rw [ht]; omega
    have h3 : ¬ us.tdiv 1000000 / 60 < 60 := by rw [ht]; omega
    rw [formatDurationCompact]
    simp only [if_neg h2, if_neg h3, if_pos h1]
  · have ht : us.tdiv 1000000 = us / 1000000 := Int.tdiv_eq_ediv (by omega) (by omega)
    have h2 : ¬ us.tdiv 1000000 < 60 := by rw [ht]; omega
    have h3 : ¬ us.tdiv 1000000 / 60 < 60 := by rw [ht]; omega
    rw [formatDurationCompact]
    simp only [if_neg h2, if_neg h3, if_neg h1]

theorem render_filter_format_spec_witness :
    formatDurationCompact 3660000000
      = toString ((3660000000 : Int).tdiv 1000000 / 60 / 60) ++ "h" ++
        toString ((3660000000 : Int).tdiv 1000000 / 60 % 60) ++ "m" :=
  (render_filter_format_spec 60 []).2.2.2.2.2.2 3660000000 (by decide) (by decide)

/-! ### Stage-1 anonymization (C3): character-level lemmas -/

theorem ciEqChar_word (a b : Char) (h : ciEqChar a b = true) : isWordB a = isWordB b := by
  have hn : normChar a = normChar b := by simpa [ciEqChar] using h
  rw [Bool.eq_iff_iff]
  simp only [isWordB, Bool.or_eq_true, Bool.and_eq_true, decide_eq_true_eq]
  unfold normChar at hn
  split_ifs at hn <;> omega

theorem word_not_space (c : Char) (h : isWordB c = true) : isSpaceB c = false := by
  simp only [isWordB, Bool.or_eq_true, Bool.and_eq_true, decide_eq_true_eq] at h
  simp only [isSpaceB, decide_eq_false_iff_not]
  omega

theorem space_not_word (c : Char) (h : isSpaceB c = true) : isWordB c = false := by
  simp only [isSpaceB, decide_eq_true_eq] at h
  simp only [isWordB, Bool.or_eq_false_iff, Bool.and_eq_false_iff,
    decide_eq_false_iff_not]
  omega

theorem dash_space_not_word (c : Char) (h : (c == ' ' || c == '-') = true) :
    isWordB c = false := by
  simp only [Bool.or_eq_true, beq_iff_eq] at h
  rcases h with h | h <;> subst h <;> decide

/-! ### Word-run toolkit -/

theorem wordRuns_cons_nonword (c : Char) (t : List Char) (h : isWordB c = false) :
    wordRuns (c :: t) = wordRuns t := by
  simp [wordRuns, h]

theorem wordRuns_cons_word :
    ∀ (t : List Char) (c : Char), isWordB c = true →
      wordRuns (c :: t) = (c :: t.takeWhile isWordB) :: wordRuns (t.dropWhile isWordB)
  | [], c, h => by simp [wordRuns, consRun, h, headW]
  | d :: rs, c, h => by
    have hstep : wordRuns (c :: d :: rs)
        = if isWordB c then consRun c (headW (d :: rs)) (wordRuns (d :: rs))
          else wordRuns (d :: rs) := rfl
    by_cases hd : isWordB d
    · have ih := wordRuns_cons_word rs d hd
      rw [hstep, if_pos h, ih]
      simp [consRun, headW, hd, List.takeWhile_cons, List.dropWhile_cons]
    · have hd2 : isWordB d = false := by simpa using hd
      rw [hstep, if_pos h]
      simp [consRun, headW, hd2, List.takeWhile_cons, List.dropWhile_cons]

theorem wordRuns_append_nonword_left :
    ∀ (pre t : List Char), (∀ c ∈ pre, isWordB c = false) →
      wordRuns (pre ++ t) = wordRuns t
  | [], _, _ => rfl
  | c :: pre2, t, h => by
    rw [List.cons_append, wordRuns_cons_nonword c _ (h c (by simp))]
    exact wordRuns_append_nonword_left pre2 t (fun x hx => h x (by simp [hx]))

theorem wordRuns_eq_nil (s : List Char) (h : ∀ c ∈ s, isWordB c = false) :
    wordRuns s = [] := by
  have := wordRuns_append_nonword_left s [] h
  simpa using this

theorem takeWhile_append_of_all (p : Char → Bool) :
    ∀ (pre t : List Char), (∀ c ∈ pre, p c = true) →
      (pre ++ t).takeWhile p = pre ++ t.takeWhile p
  | [], _, _ => rfl
  | c :: pre2, t, h => by
    rw [List.cons_append, List.takeWhile_cons, if_pos (h c (by simp)),
      takeWhile_append_of_all p pre2 t (fun x hx => h x (by simp [hx])), List.cons_append]

theorem dropWhile_append_of_all (p : Char → Bool) :
    ∀ (pre t : List Char), (∀ c ∈ pre, p c = true) →
      (pre ++ t).dropWhile p = t.dropWhile p
  | [], _, _ => rfl
  | c :: pre2, t, h => by
    rw [List.cons_append, List.dropWhile_cons, if_pos (h c (by simp))]
    exact dropWhile_append_of_all p pre2 t (fun x hx => h x (by simp [hx]))

theorem takeWhile_nil_of_headW (t : List Char) (h : headW t = false) :
    t.takeWhile isWordB = [] := by
  cases t with
  | nil => rfl
  | cons c r => simp only [headW] at h; simp [List.takeWhile_cons, h]

theorem dropWhile_self_of_headW (t : List Char) (h : headW t = false) :
    t.dropWhile isWordB = t := by
  cases t with
  | nil => rfl
  | cons c r => simp only [headW] at h; simp [List.dropWhile_cons, h]

theorem headW_dropWhile : ∀ t : List Char, headW (t.dropWhile isWordB) = false
  | [] => rfl
  | c :: r => by
    by_cases hc : isWordB c
    · rw [List.dropWhile_cons, if_pos (by simp [hc])]
      exact headW_dropWhile r
    · rw [List.dropWhile_cons, if_neg (by simpa using hc)]
      simpa [headW] using hc

theorem headW_append_left (a b : List Char) (ha : a ≠ []) :
    headW (a ++ b) = headW a := by
  cases a with
  | nil => exact absurd rfl ha
  | cons c r => rfl

theorem headW_append_nonword (a b : List Char) (ha : headW a = false)
    (hb : headW b = false) : headW (a ++ b) = false := by
  cases a with
  | nil => simpa using hb
  | cons c r => simpa [headW] using ha

theorem wordRuns_run_append (pre t : List Char) (hne : pre ≠ [])
    (hw : ∀ c ∈ pre, isWordB c = true) (ht : headW t = false) :
    wordRuns (pre ++ t) = pre :: wordRuns t := by
  obtain ⟨c, pre2, rfl⟩ := List.exists_cons_of_ne_nil hne
  rw [List.cons_append, wordRuns_cons_word _ c (hw c (by simp)),
    takeWhile_append_of_all isWordB pre2 t (fun x hx => hw x (by simp [hx])),
    dropWhile_append_of_all isWordB pre2 t (fun x hx => hw x (by simp [hx])),
    takeWhile_nil_of_headW t ht, dropWhile_self_of_headW t ht, List.append_nil]

theorem dropWhile_length_le (p : Char → Bool) :
    ∀ l : List Char, (l.dropWhile p).length ≤ l.length
  | [] => Nat.le_refl 0
  | c :: r => by
    by_cases hc : p c
    · rw [List.dropWhile_cons, if_pos hc]
      have := dropWhile_length_le p r
      simp only [List.length_cons]
      omega
    · rw [List.dropWhile_cons, if_neg hc]

theorem wordRuns_append_nonword_right :
    ∀ (n : Nat) (t suf : List Char), t.length ≤ n → (∀ c ∈ suf, isWordB c = false) →
      wordRuns (t ++ suf) = wordRuns t
  | 0, t, suf, hlen, hsuf => by
    have ht : t = [] := List.length_eq_zero.mp (Nat.le_zero.mp hlen)
    subst ht
    simpa using wordRuns_eq_nil suf hsuf
  | n + 1, [], suf, _, hsuf => by simpa using wordRuns_eq_nil suf hsuf
  | n + 1, c :: t2, suf, hlen, hsuf => by
    have hlen2 : t2.length ≤ n := by simp only [List.length_cons] at hlen; omega
    by_cases hw : isWordB c
    · have htw : ∀ x ∈ t2.takeWhile isWordB, isWordB x = true :=
        fun x hx => List.mem_takeWhile_imp hx
      have hrun : ∀ x ∈ c :: t2.takeWhile isWordB, isWordB x = true := by
        intro x hx
        rcases List.mem_cons.mp hx with rfl | hx
        · exact hw
        · exact htw x hx
      have hd : headW (t2.dropWhile isWordB) = false := headW_dropWhile t2
      have hsuf_head : headW suf = false := by
        cases suf with
        | nil => rfl
        | cons e r => simpa [headW] using hsuf e (by simp)
      have hds : headW (t2.dropWhile isWordB ++ suf) = false :=
        headW_append_nonword _ _ hd hsuf_head
      have hdlen : (t2.dropWhile isWordB).length ≤ n :=
        le_trans (dropWhile_length_le isWordB t2) hlen2
      have hsplit : (c :: t2) ++ suf
          = (c :: t2.takeWhile isWordB) ++ (t2.dropWhile isWordB ++ suf) := by
        rw [← List.append_assoc, List.cons_append, List.cons_append,
          List.takeWhile_append_dropWhile, List.cons_append]
      rw [hsplit, wordRuns_run_append _ _ (List.cons_ne_nil _ _) hrun hds,
        wordRuns_append_nonword_right n _ suf hdlen hsuf,
        ← wordRuns_run_append (c :: t2.takeWhile isWordB) (t2.dropWhile isWordB)
          (List.cons_ne_nil _ _) hrun hd]
      rw [List.cons_append, List.takeWhile_append_dropWhile]
    · have hw2 : isWordB c = false := by simpa using hw
      rw [List.cons_append, wordRuns_cons_nonword c _ hw2, wordRuns_cons_nonword c t2 hw2]
      exact wordRuns_append_nonword_right n t2 suf hlen2 hsuf

theorem wordRuns_all_word (s : List Char) (hne : s ≠ [])
    (hw : ∀ c ∈ s, isWordB c = true) : wordRuns s = [s] := by
  have := wordRuns_run_append s [] hne hw rfl
  simpa using this

/-! ### Strips preserve word runs -/

theorem dropTrailing_decomp (p : Char → Bool) :
    ∀ s : List Char, ∃ suf, s = dropTrailing p s ++ suf ∧ ∀ c ∈ suf, p c = true
  | [] => ⟨[], rfl, by simp⟩
  | c :: r => by
    obtain ⟨suf, hs, hp⟩ := dropTrailing_decomp p r
    have hstep : dropTrailing p (c :: r)
        = match dropTrailing p r with
          | [] => if p c then [] else [c]
          | out => c :: out := rfl
    cases hdt : dropTrailing p r with
    | nil =>
      rw [hdt, List.nil_append] at hs
      by_cases hc : p c
      · refine ⟨c :: r, ?_, ?_⟩
        · rw [hstep, hdt]
          simp [hc]
        · intro x hx
          rcases List.mem_cons.mp hx with rfl | hx
          · exact hc
          · exact hp x (hs ▸ hx)
      · refine ⟨suf, ?_, hp⟩
        rw [hstep, hdt]
        simp only [if_neg hc, List.cons_append, List.nil_append, List.cons.injEq,
          true_and]
        exact hs
    | cons x xs =>
      refine ⟨suf, ?_, hp⟩
      rw [hdt] at hs
      rw [hstep, hdt, List.cons_append, hs]

theorem wordRuns_stripBoth (p : Char → Bool)
    (hp : ∀ c, p c = true → isWordB c = false) (s : List Char) :
    wordRuns (stripBoth p s) = wordRuns s := by
  have h1 : wordRuns (s.dropWhile p) = wordRuns s := by
    conv_rhs => rw [← List.takeWhile_append_dropWhile p s]
    rw [wordRuns_append_nonword_left _ _
      (fun c hc => hp c (List.mem_takeWhile_imp hc))]
  obtain ⟨suf, hsplit, hsuf⟩ := dropTrailing_decomp p (s.dropWhile p)
  have h2 : wordRuns (s.dropWhile p) = wordRuns (dropTrailing p (s.dropWhile p)) := by
    conv_lhs => rw [hsplit]
    exact wordRuns_append_nonword_right (dropTrailing p (s.dropWhile p)).length _ suf
      (Nat.le_refl _) (fun c hc => hp c (hsuf c hc))
  rw [stripBoth, ← h2, h1]

theorem wordRuns_pyStrip (s : List Char) : wordRuns (pyStrip s) = wordRuns s :=
  wordRuns_stripBoth isSpaceB space_not_word s

theorem wordRuns_stripSpaceDash (s : List Char) :
    wordRuns (stripSpaceDash s) = wordRuns s :=
  wordRuns_stripBoth (fun c => c == ' ' || c == '-') dash_space_not_word s

/-! ### Dash collapsing preserves word runs -/

theorem matchDashSplit_spec (s span rest : List Char)
    (h : matchDashSplit s = some (span, rest)) :
    s = span ++ rest ∧ span ≠ [] ∧ ∀ c ∈ span, isWordB c = false := by
  unfold matchDashSplit at h
  split at h
  next r2 heq =>
    split at h
    next r4 heq2 =>
      injection h with h
      injection h with hspan hrest
      subst hspan
      subst hrest
      refine ⟨?_, by simp, ?_⟩
      · conv_lhs => rw [← List.takeWhile_append_dropWhile isSpaceB s, heq]
        have : r2 = r2.takeWhile isSpaceB ++ ('-' :: r4) := by
          conv_lhs => rw [← List.takeWhile_append_dropWhile isSpaceB r2, heq2]
        conv_lhs => rw [show ('-' :: r2) = '-' :: (r2.takeWhile isSpaceB ++ ('-' :: r4))
          from by rw [← this]]
        have hr4 : r4 = r4.takeWhile isSpaceB ++ r4.dropWhile isSpaceB :=
          (List.takeWhile_append_dropWhile isSpaceB r4).symm
        conv_lhs => rw [show ('-' :: r4) = '-' :: (r4.takeWhile isSpaceB ++ r4.dropWhile isSpaceB)
          from by rw [← hr4]]
        simp [List.append_assoc]
      · intro c hc
        simp only [List.mem_append, List.mem_cons] at hc
        rcases hc with hc | hc | hc
        · exact space_not_word c (List.mem_takeWhile_imp hc)
        · subst hc; decide
        · rcases hc with hc | hc
          · exact space_not_word c (List.mem_takeWhile_imp hc)
          · rcases hc with hc | hc
            · subst hc; decide
            · exact space_not_word c (List.mem_takeWhile_imp hc)
    next => exact absurd h (by simp)
  next => exact absurd h (by simp)

theorem matchDashSplit_rest_lt (s span rest : List Char)
    (h : matchDashSplit s = some (span, rest)) : rest.length < s.length := by
  obtain ⟨hs, hne, _⟩ := matchDashSplit_spec s span rest h
  rw [hs, List.length_append]
  cases span with
  | nil => exact absurd rfl hne
  | cons a b => simp

theorem collapseAux_nil : ∀ f : Nat, collapseAux f [] = []
  | 0 => rfl
  | _ + 1 => rfl

theorem collapseAux_fuel :
    ∀ (f1 f2 : Nat) (s : List Char), s.length ≤ f1 → s.length ≤ f2 →
      collapseAux f1 s = collapseAux f2 s
  | 0, f2, s, h1, _ => by
    have : s = [] := List.length_eq_zero.mp (Nat.le_zero.mp h1)
    subst this
    rw [collapseAux_nil, collapseAux_nil]
  | f1 + 1, f2, [], _, _ => by rw [collapseAux_nil, collapseAux_nil]
  | f1 + 1, 0, c :: r, h1, h2 => by simp at h2
  | f1 + 1, f2 + 1, c :: r, h1, h2 => by
    simp only [List.length_cons] at h1 h2
    cases hm : matchDashSplit (c :: r) with
    | some pr =>
      obtain ⟨span, rest⟩ := pr
      have hlt := matchDashSplit_rest_lt (c :: r) span rest hm
      simp only [List.length_cons] at hlt
      simp only [collapseAux, hm]
      rw [collapseAux_fuel f1 f2 rest (by omega) (by omega)]
    | none =>
      simp only [collapseAux, hm]
      rw [collapseAux_fuel f1 f2 r (by omega) (by omega)]

theorem collapseDashes_match (c : Char) (r span rest : List Char)
    (hm : matchDashSplit (c :: r) = some (span, rest)) :
    collapseDashes (c :: r) = ' ' :: '-' :: ' ' :: collapseDashes rest := by
  have hlt := matchDashSplit_rest_lt (c :: r) span rest hm
  simp only [List.length_cons] at hlt
  rw [collapseDashes, collapseDashes]
  simp only [List.length_cons, collapseAux, hm]
  rw [collapseAux_fuel r.length rest.length rest (by omega) (by omega)]

theorem collapseDashes_none (c : Char) (r : List Char)
    (hm : matchDashSplit (c :: r) = none) :
    collapseDashes (c :: r) = c :: collapseDashes r := by
  rw [collapseDashes, collapseDashes]
  simp only [List.length_cons, collapseAux, hm]

theorem matchDashSplit_none_of_word (c : Char) (r : List Char)
    (hw : isWordB c = true) : matchDashSplit (c :: r) = none := by
  have hs : isSpaceB c = false := word_not_space c hw
  have hd : c ≠ '-' := by
    intro e
    subst e
    exact absurd hw (by decide)
  unfold matchDashSplit
  rw [List.dropWhile_cons, if_neg (by simp [hs])]
  split
  next r2 heq =>
    injection heq with h1 _
    exact absurd h1 hd
  next => rfl

theorem collapse_word_copy :
    ∀ (pre t : List Char), (∀ c ∈ pre, isWordB c = true) →
      collapseDashes (pre ++ t) = pre ++ collapseDashes t
  | [], _, _ => rfl
  | c :: pre2, t, h => by
    rw [List.cons_append,
      collapseDashes_none c _ (matchDashSplit_none_of_word c _ (h c (by simp))),
      collapse_word_copy pre2 t (fun x hx => h x (by simp [hx])), List.cons_append]

theorem headW_collapse (s : List Char) (h : headW s = false) :
    headW (collapseDashes s) = false := by
  cases s with
  | nil => rfl
  | cons c r =>
    cases hm : matchDashSplit (c :: r) with
    | some pr =>
      obtain ⟨span, rest⟩ := pr
      rw [collapseDashes_match c r span rest hm]
      simp only [headW]
      decide
    | none =>
      rw [collapseDashes_none c r hm]
      simpa [headW] using h

theorem wordRuns_collapse :
    ∀ (n : Nat) (s : List Char), s.length ≤ n →
      wordRuns (collapseDashes s) = wordRuns s
  | 0, s, hlen => by
    have : s = [] := List.length_eq_zero.mp (Nat.le_zero.mp hlen)
    subst this
    rfl
  | n + 1, [], _ => rfl
  | n + 1, c :: r, hlen => by
    simp only [List.length_cons] at hlen
    cases hm : matchDashSplit (c :: r) with
    | some pr =>
      obtain ⟨span, rest⟩ := pr
      obtain ⟨hs, hne, hnw⟩ := matchDashSplit_spec (c :: r) span rest hm
      have hlt := matchDashSplit_rest_lt (c :: r) span rest hm
      simp only [List.length_cons] at hlt
      rw [collapseDashes_match c r span rest hm,
        wordRuns_cons_nonword _ _ (by decide),
        wordRuns_cons_nonword _ _ (by decide),
        wordRuns_cons_nonword _ _ (by decide),
        wordRuns_collapse n rest (by omega), hs,
        wordRuns_append_nonword_left span rest hnw]
    | none =>
      by_cases hw : isWordB c
      · have hrun : ∀ x ∈ c :: r.takeWhile isWordB, isWordB x = true := by
          intro x hx
          rcases List.mem_cons.mp hx with rfl | hx
          · exact hw
          · exact List.mem_takeWhile_imp hx
        have hd : headW (r.dropWhile isWordB) = false := headW_dropWhile r
        have hdlen : (r.dropWhile isWordB).length ≤ n :=
          le_trans (dropWhile_length_le isWordB r) (by omega)
        have hsplit : c :: r = (c :: r.takeWhile isWordB) ++ r.dropWhile isWordB := by
          rw [List.cons_append, List.takeWhile_append_dropWhile]
        rw [hsplit, collapse_word_copy _ _ hrun,
          wordRuns_run_append _ _ (List.cons_ne_nil _ _) hrun (headW_collapse _ hd),
          wordRuns_collapse n _ hdlen,
          wordRuns_run_append _ _ (List.cons_ne_nil _ _) hrun hd]
      · have hw2 : isWordB c = false := by simpa using hw
        rw [collapseDashes_none c r hm, wordRuns_cons_nonword _ _ hw2,
          wordRuns_cons_nonword _ _ hw2, wordRuns_collapse n r (by omega)]

/-! ### Keyword matching at a run start -/

theorem ciEqL_length : ∀ a b : List Char, ciEqL a b = true → a.length = b.length
  | [], [], _ => rfl
  | [], _ :: _, h => by simp [ciEqL] at h
  | _ :: _, [], h => by simp [ciEqL] at h
  | a :: as, b :: bs, h => by
    rw [ciEqL, Bool.and_eq_true] at h
    simp [ciEqL_length as bs h.2]

theorem ciEqChar_symm (a b : Char) : ciEqChar a b = ciEqChar b a := by
  rw [Bool.eq_iff_iff]
  simp only [ciEqChar, beq_iff_eq]
  exact eq_comm

theorem ciEqL_all_word :
    ∀ a b : List Char, ciEqL a b = true → (∀ c ∈ b, isWordB c = true) →
      ∀ c ∈ a, isWordB c = true
  | [], _, _, _ => by simp
  | _ :: _, [], h, _ => by simp [ciEqL] at h
  | a :: as, b :: bs, h, hw => by
    rw [ciEqL, Bool.and_eq_true] at h
    intro c hc
    rcases List.mem_cons.mp hc with rfl | hc
    · rw [ciEqChar_word c b h.1]
      exact hw b (by simp)
    · exact ciEqL_all_word as bs h.2 (fun x hx => hw x (by simp [hx])) c hc

theorem ciStarts_take :
    ∀ k s : List Char, ciStarts k s = true →
      ciEqL (s.take k.length) k = true ∧ k.length ≤ s.length
  | [], s, _ => by simp [ciEqL]
  | _ :: _, [], h => by simp [ciStarts] at h
  | a :: as, b :: bs, h => by
    rw [ciStarts, Bool.and_eq_true] at h
    obtain ⟨h1, h2⟩ := ciStarts_take as bs h.2
    refine ⟨?_, by simpa using h2⟩
    rw [List.length_cons, List.take_succ_cons, ciEqL, Bool.and_eq_true]
    exact ⟨(ciEqChar_symm b a) ▸ h.1, h1⟩

theorem ciStarts_of_append :
    ∀ (t k d : List Char), ciEqL t k = true → ciStarts k (t ++ d) = true
  | [], [], _, _ => rfl
  | [], _ :: _, _, h => by simp [ciEqL] at h
  | _ :: _, [], _, h => by simp [ciEqL] at h
  | a :: as, b :: bs, d, h => by
    rw [ciEqL, Bool.and_eq_true] at h
    rw [List.cons_append, ciStarts, Bool.and_eq_true]
    exact ⟨(ciEqChar_symm a b) ▸ h.1, ciStarts_of_append as bs d h.2⟩

theorem lastWordOf_all :
    ∀ (span : List Char) (p : Bool), span ≠ [] → (∀ c ∈ span, isWordB c = true) →
      lastWordOf p span = true
  | [], _, h, _ => absurd rfl h
  | c :: rest, p, _, hw => by
    have hstep : lastWordOf p (c :: rest) = lastWordOf (isWordB c) rest := rfl
    cases rest with
    | nil =>
      rw [hstep]
      exact hw c (by simp)
    | cons d r2 =>
      rw [hstep]
      exact lastWordOf_all (d :: r2) (isWordB c) (by simp) (fun x hx => hw x (by simp [hx]))

theorem takeWhile_eq_take_of :
    ∀ (m : Nat) (l : List Char), (∀ x ∈ l.take m, isWordB x = true) →
      headW (l.drop m) = false → l.takeWhile isWordB = l.take m
  | 0, l, _, h2 => by
    rw [List.drop_zero] at h2
    rw [List.take_zero]
    exact takeWhile_nil_of_headW l h2
  | _ + 1, [], _, _ => rfl
  | m + 1, x :: l2, h1, h2 => by
    have hx : isWordB x = true := h1 x (by simp)
    rw [List.takeWhile_cons, if_pos hx, List.take_succ_cons]
    rw [List.drop_succ_cons] at h2
    rw [takeWhile_eq_take_of m l2 (fun y hy => h1 y (by simp [hy])) h2]

theorem tryKw_iff_run (k : List Char) (hk0 : k ≠ [])
    (hkw : ∀ x ∈ k, isWordB x = true) (c : Char) (rest : List Char)
    (hc : isWordB c = true) :
    tryKw false k (c :: rest) = true ↔ ciEqL (c :: rest.takeWhile isWordB) k = true := by
  constructor
  · intro ht
    rw [tryKw, Bool.and_eq_true, Bool.and_eq_true] at ht
    obtain ⟨⟨_, hst⟩, hb2⟩ := ht
    obtain ⟨hEq, hlen⟩ := ciStarts_take k (c :: rest) hst
    have hspan_word : ∀ x ∈ (c :: rest).take k.length, isWordB x = true :=
      ciEqL_all_word _ k hEq hkw
    have hspan_ne : (c :: rest).take k.length ≠ [] := by
      have : ((c :: rest).take k.length).length = k.length := by
        rw [List.length_take]
        omega
      intro he
      rw [he] at this
      simp at this
      exact hk0 (List.length_eq_zero.mp this.symm)
    have hlast : lastWordOf false ((c :: rest).take k.length) = true :=
      lastWordOf_all _ false hspan_ne hspan_word
    rw [hlast] at hb2
    have hafter : headW ((c :: rest).drop k.length) = false := by
      cases hh : headW ((c :: rest).drop k.length) with
      | false => rfl
      | true => rw [hh] at hb2; simp at hb2
    have htw : (c :: rest).takeWhile isWordB = (c :: rest).take k.length :=
      takeWhile_eq_take_of k.length (c :: rest) hspan_word hafter
    rw [← htw] at hEq
    rw [List.takeWhile_cons, if_pos hc] at hEq
    exact hEq
  · intro hEq
    have hlen : (c :: rest.takeWhile isWordB).length = k.length := ciEqL_length _ _ hEq
    have hsrun : c :: rest
        = (c :: rest.takeWhile isWordB) ++ rest.dropWhile isWordB := by
      rw [List.cons_append, List.takeWhile_append_dropWhile]
    have hrun_word : ∀ x ∈ c :: rest.takeWhile isWordB, isWordB x = true := by
      intro x hx
      rcases List.mem_cons.mp hx with rfl | hx
      · exact hc
      · exact List.mem_takeWhile_imp hx
    have htake : (c :: rest).take k.length = c :: rest.takeWhile isWordB := by
      conv_lhs => rw [hsrun, ← hlen]
      exact List.take_left _ _
    have hdrop : (c :: rest).drop k.length = rest.dropWhile isWordB := by
      conv_lhs => rw [hsrun, ← hlen]
      exact List.drop_left _ _
    rw [tryKw, Bool.and_eq_true, Bool.and_eq_true]
    refine ⟨⟨by simp [headW, hc], ?_⟩, ?_⟩
    · rw [show (c :: rest) = (c :: rest.takeWhile isWordB) ++ rest.dropWhile isWordB
        from hsrun]
      exact ciStarts_of_append _ k _ hEq
    · rw [htake, hdrop,
        lastWordOf_all _ false (List.cons_ne_nil _ _) hrun_word,
        headW_dropWhile]
      rfl

theorem findMatch_run (kws : List (List Char))
    (hk : ∀ k ∈ kws, k ≠ [] ∧ ∀ x ∈ k, isWordB x = true) (c : Char)
    (rest : List Char) (hc : isWordB c = true) :
    (matchesKwB kws (c :: rest.takeWhile isWordB) = true →
      findMatch kws false (c :: rest) = some (c :: rest.takeWhile isWordB).length) ∧
    (matchesKwB kws (c :: rest.takeWhile isWordB) = false →
      findMatch kws false (c :: rest) = none) := by
  constructor
  · intro hm
    rw [matchesKwB, List.any_eq_true] at hm
    obtain ⟨k, hkmem, hke⟩ := hm
    have htry : tryKw false k (c :: rest) = true :=
      (tryKw_iff_run k (hk k hkmem).1 (hk k hkmem).2 c rest hc).mpr hke
    have hsome : (kws.find? (fun k => tryKw false k (c :: rest))).isSome :=
      List.find?_isSome.mpr ⟨k, hkmem, htry⟩
    obtain ⟨k0, hk0⟩ := Option.isSome_iff_exists.mp hsome
    have hk0t := List.find?_some hk0
    have hk0mem := List.mem_of_find?_eq_some hk0
    have hk0e : ciEqL (c :: rest.takeWhile isWordB) k0 = true :=
      (tryKw_iff_run k0 (hk k0 hk0mem).1 (hk k0 hk0mem).2 c rest hc).mp hk0t
    rw [findMatch, hk0, Option.map_some', ciEqL_length _ _ hk0e]
  · intro hm
    rw [matchesKwB] at hm
    have hnone : kws.find? (fun k => tryKw false k (c :: rest)) = none := by
      rw [List.find?_eq_none]
      intro k hkm ht
      have hke := (tryKw_iff_run k (hk k hkm).1 (hk k hkm).2 c rest hc).mp ht
      have : kws.any (fun k => ciEqL (c :: rest.takeWhile isWordB) k) = true :=
        List.any_eq_true.mpr ⟨k, hkm, hke⟩
      rw [hm] at this
      simp at this
    rw [findMatch, hnone, Option.map_none']

/-! ### Scan-level lemmas -/

theorem findMatch_none_word_word (kws : List (List Char)) (c : Char)
    (rest : List Char) (hc : isWordB c = true) :
    findMatch kws true (c :: rest) = none := by
  have h : kws.find? (fun k => tryKw true k (c :: rest)) = none := by
    rw [List.find?_eq_none]
    intro k _ ht
    rw [tryKw, Bool.and_eq_true, Bool.and_eq_true] at ht
    have := ht.1.1
    rw [headW, hc] at this
    simp at this
  rw [findMatch, h, Option.map_none']

theorem findMatch_none_nonword_false (kws : List (List Char)) (c : Char)
    (rest : List Char) (hc : isWordB c = false) :
    findMatch kws false (c :: rest) = none := by
  have h : kws.find? (fun k => tryKw false k (c :: rest)) = none := by
    rw [List.find?_eq_none]
    intro k _ ht
    rw [tryKw, Bool.and_eq_true, Bool.and_eq_true] at ht
    have := ht.1.1
    rw [headW, hc] at this
    simp at this
  rw [findMatch, h, Option.map_none']

theorem findMatch_none_nonword_true (kws : List (List Char))
    (hk : ∀ k ∈ kws, k ≠ [] ∧ ∀ x ∈ k, isWordB x = true) (c : Char)
    (rest : List Char) (hc : isWordB c = false) :
    findMatch kws true (c :: rest) = none := by
  have h : kws.find? (fun k => tryKw true k (c :: rest)) = none := by
    rw [List.find?_eq_none]
    intro k hkm ht
    obtain ⟨hne, hw⟩ := hk k hkm
    obtain ⟨k0, ks, rfl⟩ := List.exists_cons_of_ne_nil hne
    rw [tryKw, Bool.and_eq_true, Bool.and_eq_true] at ht
    have hst := ht.1.2
    rw [ciStarts, Bool.and_eq_true] at hst
    have := ciEqChar_word k0 c hst.1
    rw [hw k0 (by simp), hc] at this
    simp at this
  rw [findMatch, h, Option.map_none']

theorem scanAux_nil (kws : List (List Char)) :
    ∀ (f : Nat) (p : Bool), scanAux kws f p [] = []
  | 0, _ => rfl
  | _ + 1, _ => rfl

theorem scanAux_fuel (kws : List (List Char)) :
    ∀ (f1 f2 : Nat) (p : Bool) (s : List Char), s.length ≤ f1 → s.length ≤ f2 →
      scanAux kws f1 p s = scanAux kws f2 p s
  | 0, f2, p, s, h1, _ => by
    have : s = [] := List.length_eq_zero.mp (Nat.le_zero.mp h1)
    subst this
    rw [scanAux_nil, scanAux_nil]
  | f1 + 1, f2, p, [], _, _ => by rw [scanAux_nil, scanAux_nil]
  | f1 + 1, 0, p, c :: r, _, h2 => by simp at h2
  | f1 + 1, f2 + 1, p, c :: r, h1, h2 => by
    simp only [List.length_cons] at h1 h2
    cases hm : findMatch kws p (c :: r) with
    | none =>
      simp only [scanAux, hm]
      rw [scanAux_fuel kws f1 f2 (isWordB c) r (by omega) (by omega)]
    | some n =>
      cases n with
      | zero =>
        simp only [scanAux, hm]
        rw [scanAux_fuel kws f1 f2 (isWordB c) r (by omega) (by omega)]
      | succ n =>
        simp only [scanAux, hm]
        have hd : (r.drop n).length ≤ r.length := by
          rw [List.length_drop]
          omega
        rw [scanAux_fuel kws f1 f2 _ (r.drop n) (by omega) (by omega)]

theorem scanF_copy (kws : List (List Char)) (p : Bool) (c : Char) (rest : List Char)
    (hm : findMatch kws p (c :: rest) = none ∨ findMatch kws p (c :: rest) = some 0) :
    scanF kws p (c :: rest) = c :: scanF kws (isWordB c) rest := by
  rw [scanF, scanF]
  simp only [List.length_cons]
  rcases hm with hm | hm <;> simp only [scanAux, hm]

theorem scanF_match (kws : List (List Char)) (p : Bool) (c : Char) (rest : List Char)
    (n : Nat) (hm : findMatch kws p (c :: rest) = some (n + 1)) :
    scanF kws p (c :: rest)
      = scanF kws (lastWordOf p ((c :: rest).take (n + 1))) (rest.drop n) := by
  rw [scanF, scanF]
  simp only [List.length_cons, scanAux, hm]
  exact scanAux_fuel kws rest.length (rest.drop n).length _ (rest.drop n)
    (by rw [List.length_drop]; omega) (Nat.le_refl _)

theorem scanF_word_copy (kws : List (List Char)) :
    ∀ (pre t : List Char), (∀ c ∈ pre, isWordB c = true) →
      scanF kws true (pre ++ t) = pre ++ scanF kws true t
  | [], _, _ => rfl
  | c :: pre2, t, h => by
    have hc := h c (by simp)
    rw [List.cons_append,
      scanF_copy kws true c _ (Or.inl (findMatch_none_word_word kws c _ hc)), hc,
      scanF_word_copy kws pre2 t (fun x hx => h x (by simp [hx])), List.cons_append]

theorem scanF_true_eq_false (kws : List (List Char))
    (hk : ∀ k ∈ kws, k ≠ [] ∧ ∀ x ∈ k, isWordB x = true) (s : List Char)
    (hs : headW s = false) : scanF kws true s = scanF kws false s := by
  cases s with
  | nil => rfl
  | cons c r =>
    have hc : isWordB c = false := by simpa [headW] using hs
    rw [scanF_copy kws true c r (Or.inl (findMatch_none_nonword_true kws hk c r hc)),
      scanF_copy kws false c r (Or.inl (findMatch_none_nonword_false kws c r hc))]

theorem headW_scanF (kws : List (List Char)) (s : List Char)
    (hs : headW s = false) : headW (scanF kws false s) = false := by
  cases s with
  | nil => rfl
  | cons c r =>
    have hc : isWordB c = false := by simpa [headW] using hs
    rw [scanF_copy kws false c r (Or.inl (findMatch_none_nonword_false kws c r hc))]
    simpa [headW] using hc

theorem wordRuns_scanF (kws : List (List Char))
    (hk : ∀ k ∈ kws, k ≠ [] ∧ ∀ x ∈ k, isWordB x = true) :
    ∀ (n : Nat) (s : List Char), s.length ≤ n →
      wordRuns (scanF kws false s)
        = (wordRuns s).filter (fun r => !matchesKwB kws r)
  | 0, s, hlen => by
    have : s = [] := List.length_eq_zero.mp (Nat.le_zero.mp hlen)
    subst this
    rfl
  | n + 1, [], _ => rfl
  | n + 1, c :: r, hlen => by
    simp only [List.length_cons] at hlen
    by_cases hw : isWordB c
    · have hd : headW (r.dropWhile isWordB) = false := headW_dropWhile r
      have hdlen : (r.dropWhile isWordB).length ≤ n :=
        le_trans (dropWhile_length_le isWordB r) (by omega)
      have hrw : wordRuns (c :: r)
          = (c :: r.takeWhile isWordB) :: wordRuns (r.dropWhile isWordB) :=
        wordRuns_cons_word r c hw
      have hrun_word : ∀ x ∈ c :: r.takeWhile isWordB, isWordB x = true := by
        intro x hx
        rcases List.mem_cons.mp hx with rfl | hx
        · exact hw
        · exact List.mem_takeWhile_imp hx
      cases hmk : matchesKwB kws (c :: r.takeWhile isWordB) with
      | true =>
        have hfm := (findMatch_run kws hk c r hw).1 hmk
        have hfm2 : findMatch kws false (c :: r)
            = some ((r.takeWhile isWordB).length + 1) := by
          simpa using hfm
        rw [scanF_match kws false c r _ hfm2]
        have h1 := List.take_left (r.takeWhile isWordB) (r.dropWhile isWordB)
        rw [List.takeWhile_append_dropWhile] at h1
        have h2 := List.drop_left (r.takeWhile isWordB) (r.dropWhile isWordB)
        rw [List.takeWhile_append_dropWhile] at h2
        have htake : (c :: r).take ((r.takeWhile isWordB).length + 1)
            = c :: r.takeWhile isWordB := by
          rw [List.take_succ_cons, h1]
        have hdrop : r.drop (r.takeWhile isWordB).length = r.dropWhile isWordB := h2
        rw [htake, hdrop,
          lastWordOf_all _ false (List.cons_ne_nil _ _) hrun_word,
          scanF_true_eq_false kws hk _ hd,
          wordRuns_scanF kws hk n _ hdlen, hrw, List.filter_cons]
        simp [hmk]
      | false =>
        have hfm := (findMatch_run kws hk c r hw).2 hmk
        rw [scanF_copy kws false c r (Or.inl hfm), hw]
        have hcopy : scanF kws true r
            = r.takeWhile isWordB ++ scanF kws false (r.dropWhile isWordB) := by
          conv_lhs => rw [← List.takeWhile_append_dropWhile isWordB r]
          rw [scanF_word_copy kws _ _ (fun x hx => List.mem_takeWhile_imp hx),
            scanF_true_eq_false kws hk _ hd]
        rw [hcopy,
          show c :: (r.takeWhile isWordB ++ scanF kws false (r.dropWhile isWordB))
            = (c :: r.takeWhile isWordB) ++ scanF kws false (r.dropWhile isWordB)
            from by rw [List.cons_append],
          wordRuns_run_append _ _ (List.cons_ne_nil _ _) hrun_word
            (headW_scanF kws _ hd),
          wordRuns_scanF kws hk n _ hdlen, hrw, List.filter_cons]
        simp [hmk]
    · have hc : isWordB c = false := by simpa using hw
      rw [scanF_copy kws false c r (Or.inl (findMatch_none_nonword_false kws c r hc)),
        hc, wordRuns_cons_nonword _ _ hc, wordRuns_scanF kws hk n r (by omega),
        wordRuns_cons_nonword c r hc]

/-! ### A whole-word match implies a keyword-equal run -/

theorem hasMatchScan_runs (kws : List (List Char))
    (hk : ∀ k ∈ kws, k ≠ [] ∧ ∀ x ∈ k, isWordB x = true) :
    ∀ (s : List Char) (p : Bool), hasMatchScan kws p s = true →
      ∃ r ∈ wordRunsFrom p s, matchesKwB kws r = true
  | [], p, h => by simp [hasMatchScan] at h
  | c :: rest, p, h => by
    rw [hasMatchScan, Bool.or_eq_true] at h
    rcases h with h | h
    · cases p with
      | true =>
        by_cases hw : isWordB c
        · rw [findMatch_none_word_word kws c rest hw] at h
          simp at h
        · rw [findMatch_none_nonword_true kws hk c rest (by simpa using hw)] at h
          simp at h
      | false =>
        by_cases hw : isWordB c
        · cases hmk : matchesKwB kws (c :: rest.takeWhile isWordB) with
          | false =>
            rw [(findMatch_run kws hk c rest hw).2 hmk] at h
            simp at h
          | true =>
            refine ⟨c :: rest.takeWhile isWordB, ?_, hmk⟩
            rw [wordRunsFrom, if_neg (by simp), wordRuns_cons_word rest c hw]
            simp
        · rw [findMatch_none_nonword_false kws c rest (by simpa using hw)] at h
          simp at h
    · obtain ⟨r0, hr0, hm0⟩ := hasMatchScan_runs kws hk rest (isWordB c) h
      refine ⟨r0, ?_, hm0⟩
      cases p with
      | false =>
        rw [wordRunsFrom, if_neg (by simp)]
        by_cases hw : isWordB c
        · rw [hw, wordRunsFrom, if_pos rfl] at hr0
          rw [wordRuns_cons_word rest c hw]
          exact List.mem_cons_of_mem _ hr0
        · have hc : isWordB c = false := by simpa using hw
          rw [hc, wordRunsFrom, if_neg (by simp)] at hr0
          rw [wordRuns_cons_nonword c rest hc]
          exact hr0
      | true =>
        rw [wordRunsFrom, if_pos rfl]
        by_cases hw : isWordB c
        · rw [hw, wordRunsFrom, if_pos rfl] at hr0
          rw [List.dropWhile_cons, if_pos (by simp [hw])]
          exact hr0
        · have hc : isWordB c = false := by simpa using hw
          rw [hc, wordRunsFrom, if_neg (by simp)] at hr0
          rw [List.dropWhile_cons, if_neg (by simp [hc]), wordRuns_cons_nonword c rest hc]
          exact hr0

/-! ### The stage-1 output contains no whole-word keyword match -/

theorem preSanitize_no_match (kws : List (List Char))
    (hk : ∀ k ∈ kws, k ≠ [] ∧ ∀ x ∈ k, isWordB x = true) (s : List Char) :
    hasMatchScan kws false (preSanitizeChars kws s) = false := by
  cases hh : hasMatchScan kws false (preSanitizeChars kws s) with
  | false => rfl
  | true =>
    exfalso
    obtain ⟨r0, hr0, hm0⟩ := hasMatchScan_runs kws hk _ false hh
    rw [wordRunsFrom, if_neg (by simp)] at hr0
    rw [preSanitizeChars, wordRuns_stripSpaceDash,
      wordRuns_collapse (pyStrip (forbiddenSub kws s)).length _ (Nat.le_refl _),
      wordRuns_pyStrip,
      show forbiddenSub kws s = scanF kws false s from rfl,
      wordRuns_scanF kws hk s.length s (Nat.le_refl _)] at hr0
    have := (List.mem_filter.mp hr0).2
    rw [hm0] at this
    simp at this

theorem hasMatchScan_nil_kws : ∀ (p : Bool) (s : List Char), hasMatchScan [] p s = false
  | _, [] => rfl
  | p, c :: r => by
    rw [hasMatchScan, hasMatchScan_nil_kws (isWordB c) r]
    simp [findMatch]

/-- Claim C3, counterexample: with `FORBIDDEN_KEYWORDS = ["-", "ab"]` and the
input title `"a-b"`, stage 1 removes the whole-word `"-"` (both of its
neighbours are word characters, so both `\b` hold), gluing `"a"` and `"b"`
into `"ab"`; the stage-2 oracle failing, `_anonymize_title` returns `"ab"`,
which contains a whole-word match of the configured forbidden keyword
`"ab"`.  The claim's final conjunct is therefore false as stated for
arbitrary configured keywords. -/
theorem anonymize_fallback_counterexample :
    anonymizeTitle ["-", "ab"] (fun _ => none) "a-b" = "ab" ∧
    hasForbiddenWordMatch ["-", "ab"] "ab" = true := by
  constructor <;> decide

/-- Claim C3 (amended): for every input title, when the stage-2 external
rewrite returns no result, `_anonymize_title` returns the stage-1 result
(whole-word case-insensitive keyword removal, `" - - "` collapse, and
leading/trailing strip — `preSanitizedTitle`); and provided every configured
forbidden keyword is non-empty and consists only of word characters
(letters, digits, underscore), the returned string contains no whole-word,
case-insensitive match of any configured forbidden keyword. -/
theorem anonymize_fallback_spec (kws : List String) (title : String)
    (hk : ∀ k ∈ kws, k ≠ "" ∧ ∀ c ∈ k.data, isWordB c = true) :
    anonymizeTitle kws (fun _ => none) title = preSanitizedTitle kws title ∧
    hasForbiddenWordMatch kws (preSanitizedTitle kws title) = false := by
  refine ⟨rfl, ?_⟩
  by_cases hkn : kws.isEmpty
  · have hnil : kws = [] := by
      cases kws with
      | nil => rfl
      | cons a l => simp at hkn
    subst hnil
    rw [hasForbiddenWordMatch, List.map_nil, hasMatchScan_nil_kws]
  · rw [preSanitizedTitle, if_neg hkn, hasForbiddenWordMatch]
    apply preSanitize_no_match
    intro k hkm
    obtain ⟨k0, hk0m, rfl⟩ := List.mem_map.mp hkm
    obtain ⟨h1, h2⟩ := hk k0 hk0m
    refine ⟨?_, h2⟩
    intro he
    apply h1
    cases k0 with
    | mk l =>
      simp only [String.data] at he
      rw [he]

theorem anonymize_fallback_spec_witness :
    anonymizeTitle ["alice"] (fun _ => none) "alice - chat"
        = preSanitizedTitle ["alice"] "alice - chat" ∧
    hasForbiddenWordMatch ["alice"] (preSanitizedTitle ["alice"] "alice - chat")
        = false :=
  anonymize_fallback_spec ["alice"] "alice - chat" (by decide)
